import Mathlib

/-!
# Heart fractal renderer (heart_fractal.cpp)

A shallow embedding of `p`, `T` and `generate_fractal`.

The program computes with IEEE doubles and the C++ complex library.  The
primitive operations on doubles (`+ - * /`, `>`, conversions, `std::pow`,
`std::exp`, `abs`, `arg`) are library code, so the embedding takes them as a
record of operations over an arbitrary carrier `F`; every function of the
source is then an ordinary computable function of that record.  Theorems
stated for all records hold for the machine doubles in particular.  Two
records are given: exact rational arithmetic for the coordinate
computations, and exact real arithmetic for the whole recurrence.

Integer code (loop counters, the colour formulas, byte stores) is embedded
over `Nat` and `Int` with explicit 32-bit and 8-bit reductions.
-/

namespace HeartFractal

/-! ## Constants -/

/-- Image width in pixels, `#define WIDTH 1980`. -/
def WIDTH : Nat := 1980

/-- Image height in pixels, `#define HEIGHT 1080`. -/
def HEIGHT : Nat := 1080

/-- Iteration cap, `#define MAX_ITER 2000`. -/
def MAX_ITER : Nat := 2000

/-! ## Doubles and complex numbers -/

/-- A `std::complex<double>` value over the carrier `F`: real and imaginary part. -/
structure Cplx (F : Type) where
  re : F
  im : F
deriving DecidableEq, Repr

/-- The scalar operations of `double` used by the coordinate computations. -/
structure Arith (F : Type) where
  /-- Conversion of an `int` to `double`. -/
  ofInt : Int → F
  /-- The value of a decimal literal such as `0.16`. -/
  lit : ℚ → F
  /-- Unary minus. -/
  neg : F → F
  /-- Addition. -/
  add : F → F → F
  /-- Subtraction. -/
  sub : F → F → F
  /-- Multiplication. -/
  mul : F → F → F
  /-- Division. -/
  div : F → F → F
  /-- The comparison `a > b`. -/
  gt : F → F → Bool

/-- The operations of `<cmath>` and `<complex>` used by the recurrence. -/
structure CMath (F : Type) extends Arith F where
  /-- Real power `std::pow(r, d)`. -/
  pow : F → F → F
  /-- Complex exponential `std::exp(z)`. -/
  cexp : Cplx F → Cplx F
  /-- Modulus `abs(z)`. -/
  cabs : Cplx F → F
  /-- Argument `arg(z)`. -/
  carg : Cplx F → F

/-- Complex addition `a + b`, component by component. -/
def Cplx.add {F : Type} (ops : Arith F) (a b : Cplx F) : Cplx F :=
  ⟨ops.add a.re b.re, ops.add a.im b.im⟩

/-- Product `s * z` of a double and a complex number, component by component. -/
def Cplx.smul {F : Type} (ops : Arith F) (s : F) (z : Cplx F) : Cplx F :=
  ⟨ops.mul s z.re, ops.mul s z.im⟩

/-- Coefficient `#define A -1.00`. -/
def A {F : Type} (ops : Arith F) : F := ops.neg (ops.lit 1.00)

/-- Coefficient `#define B 0.16`. -/
def B {F : Type} (ops : Arith F) : F := ops.lit 0.16

/-- Coefficient `#define C 1.97`. -/
def C {F : Type} (ops : Arith F) : F := ops.lit 1.97

/-- Exponent `#define D -2.31`. -/
def D {F : Type} (ops : Arith F) : F := ops.neg (ops.lit 2.31)

/-- Escape threshold `#define ESCAPE_RADIUS 4.0`. -/
def ESCAPE_RADIUS {F : Type} (ops : Arith F) : F := ops.lit 4.0

/-! ## The field evaluator -/

/-- Source `p`: `A * phi * phi + B * phi + C`, in C's left-to-right grouping. -/
def p {F : Type} (ops : Arith F) (phi : F) : F :=
  ops.add (ops.add (ops.mul (ops.mul (A ops) phi) phi) (ops.mul (B ops) phi)) (C ops)

/-- Source `T`: `std::pow(r, D) * std::exp(std::complex<double>(0, p(phi)))`. -/
def T {F : Type} (ops : CMath F) (r phi : F) : Cplx F :=
  Cplx.smul ops.toArith (ops.pow r (D ops.toArith))
    (ops.cexp ⟨ops.ofInt 0, p ops.toArith phi⟩)

/-- One pass through lines 49-52 of the loop body: `z = T(abs(z), arg(z)) + c`. -/
def step {F : Type} (ops : CMath F) (c z : Cplx F) : Cplx F :=
  Cplx.add ops.toArith (T ops (ops.cabs z) (ops.carg z)) c

/-- The test of line 54: `abs(z) > ESCAPE_RADIUS`. -/
def escaped {F : Type} (ops : CMath F) (z : Cplx F) : Bool :=
  ops.gt (ops.cabs z) (ESCAPE_RADIUS ops.toArith)

/-- The loop `for (iter = ...; iter < cap; iter++)` of lines 48-57, entered with
`rest = cap - iter` iterations still allowed, counter `iter` and current `z`.
Returns the value of `iter` when the loop is left. -/
def escapeLoop {F : Type} (ops : CMath F) (c : Cplx F) : Nat → Nat → Cplx F → Nat
  | 0, iter, _ => iter
  | rest + 1, iter, z =>
      let z1 := step ops c z
      if escaped ops z1 then iter else escapeLoop ops c rest (iter + 1) z1

/-- The escape-time procedure for the sample point `c` with iteration cap
`cap`: `z = c; iter = 0;` then the loop. -/
def escapeTime {F : Type} (ops : CMath F) (cap : Nat) (c : Cplx F) : Nat :=
  escapeLoop ops c cap 0 c

/-- The orbit of the claim: `z_0 = c`, `z_(k+1) = T(|z_k|, arg z_k) + c`. -/
def orbit {F : Type} (ops : CMath F) (c : Cplx F) : Nat → Cplx F
  | 0 => c
  | k + 1 => step ops c (orbit ops c k)

/-! ## Colour mapping -/

/-- An RGB triple of `png_byte` values. -/
structure RGB where
  red : Nat
  green : Nat
  blue : Nat
deriving DecidableEq, Repr

/-- Reduction of a mathematical integer to a 32-bit two's-complement `int`. -/
def wrap32 (x : Int) : Int := (x + 2 ^ 31) % 2 ^ 32 - 2 ^ 31

/-- The C remainder `a % b` (truncated division, sign of the dividend). -/
def cRem (a b : Int) : Int := Int.tmod a b

/-- Conversion of an `int` to `png_byte` (unsigned 8 bit): reduction modulo 256. -/
def toByte (x : Int) : Nat := (x % 256).toNat

/-- One channel of lines 63-65: `(iter * k) % 256` computed in `int` and
stored in a `png_byte`. -/
def channel (iter : Nat) (k : Int) : Nat :=
  toByte (cRem (wrap32 ((iter : Int) * k)) 256)

/-- Lines 59-66: the colour of a sample from its iteration count, with the
iteration cap as a parameter. -/
def sampleColour (cap iter : Nat) : RGB :=
  if iter = cap then ⟨0, 0, 0⟩
  else ⟨channel iter 15, channel iter 3, channel iter 5⟩

/-! ## Supersampling -/

/-- Lines 35-38 and 42-43 for one axis: the coordinate of sub-sample `s` of
pixel index `i` on an axis of `n` pixels,
`(i - n / 2.0) * (4.0 / n) + (s + 0.5) * (4.0 / n) / 2.0`. -/
def sampleCoord {F : Type} (ops : Arith F) (n i s : Nat) : F :=
  let scale := ops.div (ops.lit 4.0) (ops.ofInt n)
  let offset := ops.mul (ops.sub (ops.ofInt i) (ops.div (ops.ofInt n) (ops.lit 2.0))) scale
  ops.add offset (ops.div (ops.mul (ops.add (ops.ofInt s) (ops.lit 0.5)) scale) (ops.lit 2.0))

/-- Lines 42-45: the sample point `z(zx, zy)` of sub-sample `(sx, sy)` of pixel `(x, y)`. -/
def samplePoint {F : Type} (ops : Arith F) (x y sx sy : Nat) : Cplx F :=
  ⟨sampleCoord ops WIDTH x sx, sampleCoord ops HEIGHT y sy⟩

/-- Lines 44-66 for one sub-sample: its colour. -/
def subsampleColour {F : Type} (ops : CMath F) (x y sx sy : Nat) : RGB :=
  sampleColour MAX_ITER (escapeTime ops MAX_ITER (samplePoint ops.toArith x y sx sy))

/-- The four sub-samples `(sx, sy)` in the order the loops of lines 40-41 visit them. -/
def subsamples : List (Nat × Nat) := [(0, 0), (1, 0), (0, 1), (1, 1)]

/-- Truncation of a `double` towards zero.  The accumulators of line 32 only
ever hold sums of at most four bytes, and their quotients by 4, which binary
floating point represents exactly, so they are embedded as rationals. -/
def truncQ (q : ℚ) : Int := Int.tdiv q.num q.den

/-- Lines 74-76: `total / samples` converted to a `png_byte`. -/
def storeChannel (total : ℚ) (samples : Int) : Nat :=
  toByte (truncQ (total / (samples : ℚ)))

/-- Lines 32-33 and 68-76: the pixel colour stored for four sample colours,
accumulated from zero in the given order. -/
def averageColour (cols : List RGB) : RGB :=
  let total_red : ℚ := cols.foldl (fun t c => t + (c.red : ℚ)) 0
  let total_green : ℚ := cols.foldl (fun t c => t + (c.green : ℚ)) 0
  let total_blue : ℚ := cols.foldl (fun t c => t + (c.blue : ℚ)) 0
  ⟨storeChannel total_red 4, storeChannel total_green 4, storeChannel total_blue 4⟩

/-- The body of the `x` loop, lines 32-76, without the stores: the colour of pixel `(x, y)`. -/
def pixelColour {F : Type} (ops : CMath F) (x y : Nat) : RGB :=
  averageColour (subsamples.map (fun s => subsampleColour ops x y s.1 s.2))

/-! ## The pixel buffer -/

/-- A store `row[i] = v` into a row of bytes; `none` when `i` is out of bounds. -/
def writeByte (row : List Nat) (i v : Nat) : Option (List Nat) :=
  if i < row.length then some (row.set i v) else none

/-- Lines 74-76: the three stores for pixel `x` of a row. -/
def writePixel (row : List Nat) (x : Nat) (col : RGB) : Option (List Nat) := do
  let r1 ← writeByte row (x * 3) col.red
  let r2 ← writeByte r1 (x * 3 + 1) col.green
  writeByte r2 (x * 3 + 2) col.blue

/-- The `x` loop of lines 31-77 on the row `y`. -/
def renderRow {F : Type} (ops : CMath F) (y : Nat) (row : List Nat) : Option (List Nat) :=
  (List.range WIDTH).foldlM (fun r x => writePixel r x (pixelColour ops x y)) row

/-- One iteration of the `y` loop, lines 30-78: fetch `row_pointers[y]` and
fill the row; `none` when `y` is out of bounds or a store is. -/
def renderLine {F : Type} (ops : CMath F) (buf : List (List Nat)) (y : Nat) :
    Option (List (List Nat)) := do
  let row ← buf[y]?
  let row1 ← renderRow ops y row
  some (buf.set y row1)

/-- Source `generate_fractal`.  The `omp parallel for` hands the iterations
`y = 0 .. HEIGHT-1` to the workers in an unspecified order; `order` is the
order in which the rows are completed. -/
def generate_fractal {F : Type} (ops : CMath F) (order : List Nat)
    (row_pointers : List (List Nat)) : Option (List (List Nat)) :=
  order.foldlM (renderLine ops) row_pointers

/-- One channel of a colour by index: 0 red, 1 green, otherwise blue. -/
def RGB.chan (col : RGB) (k : Nat) : Nat :=
  if k = 0 then col.red else if k = 1 then col.green else col.blue

/-- The row of bytes that pixel colours determine for line `y`. -/
def expectedRow {F : Type} (ops : CMath F) (y : Nat) : List Nat :=
  (List.range (WIDTH * 3)).map (fun i => (pixelColour ops (i / 3) y).chan (i % 3))

/-- The image that pixel colours determine. -/
def expectedImage {F : Type} (ops : CMath F) : List (List Nat) :=
  (List.range HEIGHT).map (expectedRow ops)

/-- The sum over the four sub-samples of pixel `(x, y)` of one channel `f` of
their colours. -/
def sampleSum {F : Type} (ops : CMath F) (x y : Nat) (f : RGB → Nat) : Nat :=
  f (subsampleColour ops x y 0 0) + f (subsampleColour ops x y 1 0) +
    f (subsampleColour ops x y 0 1) + f (subsampleColour ops x y 1 1)

/-! ## Exact arithmetic -/

/-- Exact rational arithmetic for the scalar operations. -/
def ratArith : Arith ℚ where
  ofInt n := (n : ℚ)
  lit q := q
  neg a := -a
  add a b := a + b
  sub a b := a - b
  mul a b := a * b
  div a b := a / b
  gt a b := decide (b < a)

/-- A pair of reals read as a complex number. -/
def toC (z : Cplx ℝ) : ℂ := ⟨z.re, z.im⟩

/-- Exact real arithmetic for all operations: the mathematical functions the
library calls approximate.  (At `r = 0` the library power is infinite while
the real power below is 0; no statement made here evaluates it there.) -/
noncomputable def realMath : CMath ℝ where
  ofInt n := (n : ℝ)
  lit q := (q : ℝ)
  neg a := -a
  add a b := a + b
  sub a b := a - b
  mul a b := a * b
  div a b := a / b
  gt a b := decide (b < a)
  pow r d := r ^ d
  cexp z := ⟨(Complex.exp (toC z)).re, (Complex.exp (toC z)).im⟩
  cabs z := Complex.abs (toC z)
  carg z := Complex.arg (toC z)

/-- The angle polynomial over the reals, `-phi^2 + 0.16 phi + 1.97`. -/
noncomputable def angle (phi : ℝ) : ℝ := -(phi * phi) + 0.16 * phi + 1.97

/-- The point `4 + 1/1024` on the positive real axis, just outside the escape radius. -/
noncomputable def nearPoint : Cplx ℝ := ⟨4097 / 1024, 0⟩

/-- The point `5` on the positive real axis. -/
noncomputable def farPoint : Cplx ℝ := ⟨5, 0⟩

/-! ## The escape-time loop -/

/-- The loop invariant made explicit: started on the orbit at `z_iter` with
`rest` iterations left, the loop leaves `iter` at a value `n` between `iter`
and `iter + rest`, no orbit point `z_(m+1)` with `iter ≤ m < n` passed the
test, and when `n` is below `iter + rest` the point `z_(n+1)` did. -/
theorem escapeLoop_spec {F : Type} (ops : CMath F) (c : Cplx F) (rest : Nat) :
    ∀ iter : Nat,
      iter ≤ escapeLoop ops c rest iter (orbit ops c iter) ∧
      escapeLoop ops c rest iter (orbit ops c iter) ≤ iter + rest ∧
      (∀ m, iter ≤ m → m < escapeLoop ops c rest iter (orbit ops c iter) →
        escaped ops (orbit ops c (m + 1)) = false) ∧
      (escapeLoop ops c rest iter (orbit ops c iter) < iter + rest →
        escaped ops (orbit ops c (escapeLoop ops c rest iter (orbit ops c iter) + 1)) = true) := by
  induction rest with
  | zero =>
    intro iter
    simp only [escapeLoop]
    refine ⟨le_refl _, le_refl _, ?_, ?_⟩
    · intro m h1 h2; omega
    · intro h; omega
  | succ rest ih =>
    intro iter
    simp only [escapeLoop]
    by_cases hesc : escaped ops (step ops c (orbit ops c iter)) = true
    · rw [if_pos hesc]
      refine ⟨le_refl _, by omega, ?_, ?_⟩
      · intro m h1 h2; omega
      · intro _; exact hesc
    · rw [if_neg hesc]
      have hstep : step ops c (orbit ops c iter) = orbit ops c (iter + 1) := rfl
      rw [hstep]
      obtain ⟨h1, h2, h3, h4⟩ := ih (iter + 1)
      refine ⟨by omega, by omega, ?_, ?_⟩
      · intro m hm1 hm2
        by_cases hm : m = iter
        · subst hm
          rw [← hstep]
          simpa using hesc
        · exact h3 m (by omega) hm2
      · intro h
        exact h4 (by omega)

/-- Raising the number of allowed iterations does not change a run that left
the loop through the `break`. -/
theorem escapeLoop_mono {F : Type} (ops : CMath F) (c : Cplx F) (rest : Nat) :
    ∀ (rest1 iter : Nat) (z : Cplx F), rest ≤ rest1 →
      escapeLoop ops c rest iter z < iter + rest →
      escapeLoop ops c rest1 iter z = escapeLoop ops c rest iter z := by
  induction rest with
  | zero =>
    intro rest1 iter z _ h
    simp only [escapeLoop] at h
    omega
  | succ rest ih =>
    intro rest1 iter z hle h
    obtain ⟨r1, rfl⟩ : ∃ r1, rest1 = r1 + 1 := ⟨rest1 - 1, by omega⟩
    simp only [escapeLoop] at h ⊢
    by_cases hesc : escaped ops (step ops c z) = true
    · simp only [if_pos hesc]
    · simp only [if_neg hesc] at h ⊢
      exact ih r1 (iter + 1) _ (by omega) (by omega)

/-- The loop counter never passes the cap. -/
theorem escapeLoop_le {F : Type} (ops : CMath F) (c : Cplx F) (rest : Nat) :
    ∀ (iter : Nat) (z : Cplx F), escapeLoop ops c rest iter z ≤ iter + rest := by
  induction rest with
  | zero => intro iter z; simp [escapeLoop]
  | succ rest ih =>
    intro iter z
    simp only [escapeLoop]
    split
    · omega
    · have := ih (iter + 1) (step ops c z)
      omega

/-- With at least one iteration allowed, the count is 0 exactly when the
first updated value passes the test. -/
theorem escapeTime_eq_zero_iff {F : Type} (ops : CMath F) (cap : Nat) (c : Cplx F)
    (hcap : 0 < cap) :
    escapeTime ops cap c = 0 ↔ escaped ops (step ops c c) = true := by
  obtain ⟨r, rfl⟩ : ∃ r, cap = r + 1 := ⟨cap - 1, by omega⟩
  simp only [escapeTime, escapeLoop]
  by_cases hesc : escaped ops (step ops c c) = true
  · simp [hesc]
  · rw [if_neg hesc]
    have hge : 1 ≤ escapeLoop ops c r 1 (step ops c c) := (escapeLoop_spec ops c r 1).1
    constructor
    · intro h
      have h0 : escapeLoop ops c r 1 (step ops c c) = 0 := h
      omega
    · intro h; exact absurd h hesc

/-- When no orbit point passes the test, the loop runs to the cap. -/
theorem escapeTime_eq_cap {F : Type} (ops : CMath F) (cap : Nat) (c : Cplx F)
    (h : ∀ m, m < cap → escaped ops (orbit ops c (m + 1)) = false) :
    escapeTime ops cap c = cap := by
  obtain ⟨_, h2, _, h4⟩ := escapeLoop_spec ops c cap 0
  have h0 : orbit ops c 0 = c := rfl
  rw [h0] at h2 h4
  by_contra hne
  have hlt : escapeLoop ops c cap 0 c < 0 + cap := by
    have : escapeLoop ops c cap 0 c ≠ cap := hne
    omega
  have := h4 hlt
  rw [h _ (by omega)] at this
  exact Bool.false_ne_true this

/-! ## Integer colour arithmetic -/

/-- A non-negative value below `2^31` is unchanged by the 32-bit reduction,
its C remainder by 256 is the mathematical one, and the byte stored is that
remainder. -/
theorem small_int_byte (n : Nat) (hn : n < 2 ^ 31) :
    wrap32 (n : Int) = (n : Int) ∧ cRem (n : Int) 256 = ((n % 256 : Nat) : Int) ∧
    toByte ((n % 256 : Nat) : Int) = n % 256 := by
  have hn1 : n < 2147483648 := by simpa using hn
  refine ⟨?_, ?_, ?_⟩
  · have h31 : (2 : Int) ^ 31 = 2147483648 := by norm_num
    have h32 : (2 : Int) ^ 32 = 4294967296 := by norm_num
    unfold wrap32
    rw [h31, h32]
    omega
  · unfold cRem
    rw [Int.tmod_eq_emod (Int.ofNat_nonneg n) (by decide)]
    omega
  · unfold toByte
    omega

/-- For a count below the cap the product `iter * k` with `0 ≤ k ≤ 15` stays
inside `int`, its C remainder is the mathematical one, and so is the byte. -/
theorem channel_eq (iter : Nat) (k : Nat) (hk : k ≤ 15) (h : iter < MAX_ITER) :
    wrap32 ((iter : Int) * (k : Int)) = (iter : Int) * (k : Int) ∧
    cRem (wrap32 ((iter : Int) * (k : Int))) 256 = ((k * iter % 256 : Nat) : Int) ∧
    channel iter (k : Int) = k * iter % 256 := by
  have hM : iter < 2000 := h
  have hprod : (iter : Int) * (k : Int) = ((k * iter : Nat) : Int) := by push_cast; ring
  have hb : k * iter ≤ 15 * 2000 := Nat.mul_le_mul hk (by omega)
  obtain ⟨h1, h2, h3⟩ := small_int_byte (k * iter) (by norm_num; omega)
  have hw : wrap32 ((iter : Int) * (k : Int)) = (iter : Int) * (k : Int) := by
    rw [hprod]; exact h1
  have hr : cRem (wrap32 ((iter : Int) * (k : Int))) 256 = ((k * iter % 256 : Nat) : Int) := by
    rw [hw, hprod]; exact h2
  refine ⟨hw, hr, ?_⟩
  unfold channel
  rw [hr]
  exact h3

/-! ## The recurrence in exact real arithmetic -/

theorem real_p (phi : ℝ) : p realMath.toArith phi = angle phi := by
  simp only [p, A, B, C, realMath, angle]
  push_cast
  norm_num

theorem real_D : D realMath.toArith = (-2.31 : ℝ) := by
  simp only [D, realMath]
  push_cast
  norm_num

theorem real_step (c z : Cplx ℝ) :
    toC (step realMath c z) =
      ((Complex.abs (toC z) ^ (-2.31 : ℝ) : ℝ) : ℂ) *
        Complex.exp ((angle (Complex.arg (toC z)) : ℝ) * Complex.I) + toC c := by
  have hexp : Complex.exp (toC ⟨((0 : Int) : ℝ), angle (Complex.arg (toC z))⟩) =
      Complex.exp ((angle (Complex.arg (toC z)) : ℝ) * Complex.I) := by
    congr 1
    apply Complex.ext <;> simp [toC]
  apply Complex.ext
  · show Complex.abs (toC z) ^ (D realMath.toArith) *
        (Complex.exp (toC ⟨((0 : Int) : ℝ), p realMath.toArith (Complex.arg (toC z))⟩)).re +
        c.re = _
    rw [real_p, real_D, hexp]
    simp [toC]
  · show Complex.abs (toC z) ^ (D realMath.toArith) *
        (Complex.exp (toC ⟨((0 : Int) : ℝ), p realMath.toArith (Complex.arg (toC z))⟩)).im +
        c.im = _
    rw [real_p, real_D, hexp]
    simp [toC]

theorem real_escaped (z : Cplx ℝ) :
    escaped realMath z = true ↔ 4 < Complex.abs (toC z) := by
  show decide (((4.0 : ℚ) : ℝ) < Complex.abs (toC z)) = true ↔ _
  rw [decide_eq_true_iff]
  norm_num

/-- The modulus of the `T` term is `|z|^(-2.31)`. -/
theorem real_T_abs (z : Cplx ℝ) :
    Complex.abs (((Complex.abs (toC z) ^ (-2.31 : ℝ) : ℝ) : ℂ) *
        Complex.exp ((angle (Complex.arg (toC z)) : ℝ) * Complex.I)) =
      Complex.abs (toC z) ^ (-2.31 : ℝ) := by
  rw [map_mul, Complex.abs_exp_ofReal_mul_I, mul_one, Complex.abs_ofReal]
  exact abs_of_nonneg (Real.rpow_nonneg (AbsoluteValue.nonneg _ _) _)

/-- Triangle inequality for one step, from above. -/
theorem real_step_le (c z : Cplx ℝ) :
    Complex.abs (toC (step realMath c z)) ≤
      Complex.abs (toC z) ^ (-2.31 : ℝ) + Complex.abs (toC c) := by
  have hT := real_T_abs z
  have h := Complex.abs.add_le
    (((Complex.abs (toC z) ^ (-2.31 : ℝ) : ℝ) : ℂ) *
        Complex.exp ((angle (Complex.arg (toC z)) : ℝ) * Complex.I))
    (toC c)
  rw [real_step]
  linarith

/-- Triangle inequality for one step, from below. -/
theorem real_step_ge (c z : Cplx ℝ) :
    Complex.abs (toC c) - Complex.abs (toC z) ^ (-2.31 : ℝ) ≤
      Complex.abs (toC (step realMath c z)) := by
  have hT := real_T_abs z
  have h := Complex.abs.le_add (toC c)
    (((Complex.abs (toC z) ^ (-2.31 : ℝ) : ℝ) : ℂ) *
        Complex.exp ((angle (Complex.arg (toC z)) : ℝ) * Complex.I))
  rw [real_step, add_comm]
  linarith

/-- For `r ≥ a ≥ 1` the power `r^(-2.31)` is at most `1 / a^2`. -/
theorem rpow_bound (a r : ℝ) (ha : 1 ≤ a) (har : a ≤ r) :
    r ^ (-2.31 : ℝ) ≤ 1 / a ^ 2 := by
  have h1 : r ^ (-2.31 : ℝ) ≤ a ^ (-2.31 : ℝ) :=
    Real.rpow_le_rpow_of_exponent_nonpos (by linarith) har (by norm_num)
  have h2 : a ^ (-2.31 : ℝ) ≤ a ^ (-2 : ℝ) :=
    Real.rpow_le_rpow_of_exponent_le ha (by norm_num)
  have h3 : a ^ (-2 : ℝ) = 1 / a ^ 2 := by
    rw [Real.rpow_neg (by linarith), Real.rpow_two, one_div]
  linarith

/-- In exact real arithmetic a start point of modulus above `4.0625` passes
the test after the first update. -/
theorem real_far_escapes (c : Cplx ℝ) (h : 4.0625 < Complex.abs (toC c)) :
    escaped realMath (step realMath c c) = true := by
  rw [real_escaped]
  have h1 := real_step_ge c c
  have h2 := rpow_bound 4 (Complex.abs (toC c)) (by norm_num) (by linarith)
  norm_num at h2 h
  linarith

/-- In exact real arithmetic, for a start point of modulus between 1.9 and
3.3 the orbit stays in the annulus `1.2 ≤ |z| ≤ 4` for ever. -/
theorem real_annulus (c : Cplx ℝ) (h1 : 1.9 ≤ Complex.abs (toC c))
    (h2 : Complex.abs (toC c) ≤ 3.3) (k : Nat) :
    1.2 ≤ Complex.abs (toC (orbit realMath c k)) ∧
      Complex.abs (toC (orbit realMath c k)) ≤ 4 := by
  induction k with
  | zero =>
    show 1.2 ≤ Complex.abs (toC c) ∧ Complex.abs (toC c) ≤ 4
    constructor <;> linarith
  | succ k ih =>
    show 1.2 ≤ Complex.abs (toC (step realMath c (orbit realMath c k))) ∧
      Complex.abs (toC (step realMath c (orbit realMath c k))) ≤ 4
    have hb := rpow_bound 1.2 _ (by norm_num) ih.1
    have hle := real_step_le c (orbit realMath c k)
    have hge := real_step_ge c (orbit realMath c k)
    norm_num at hb
    constructor <;> linarith

/-- In exact real arithmetic a start point of modulus between 1.9 and 3.3
never escapes: the loop runs to the cap. -/
theorem real_interior (c : Cplx ℝ) (cap : Nat) (h1 : 1.9 ≤ Complex.abs (toC c))
    (h2 : Complex.abs (toC c) ≤ 3.3) :
    escapeTime realMath cap c = cap := by
  apply escapeTime_eq_cap
  intro m _
  have h := (real_annulus c h1 h2 (m + 1)).2
  cases hesc : escaped realMath (orbit realMath c (m + 1))
  · rfl
  · rw [real_escaped] at hesc
    linarith

/-- The cosine of the angle `C = 1.97` is below `-0.3`. -/
theorem cos_C_le : Real.cos 1.97 ≤ -0.3 := by
  have hpi1 : Real.pi < 3.15 := Real.pi_lt_d2
  have hpi2 : 3 < Real.pi := Real.pi_gt_three
  have hx0 : 0 < (1.97 : ℝ) - Real.pi / 2 := by linarith
  have hx1 : (1.97 : ℝ) - Real.pi / 2 ≤ 1 := by linarith
  have hsin := Real.sin_gt_sub_cube hx0 hx1
  have hcos : Real.cos 1.97 = -Real.sin (1.97 - Real.pi / 2) := by
    rw [← Real.cos_add_pi_div_two]
    congr 1
    ring
  have hcube : ((1.97 : ℝ) - Real.pi / 2) ^ 3 ≤ 0.47 ^ 3 :=
    pow_le_pow_left₀ hx0.le (by linarith) 3
  rw [hcos]
  norm_num at hcube ⊢
  linarith

/-- In exact real arithmetic the first update of `nearPoint` lands inside the
escape radius. -/
theorem real_near_stays :
    Complex.abs (toC (step realMath nearPoint nearPoint)) ≤ 4 := by
  have hc : toC nearPoint = ((4097 / 1024 : ℝ) : ℂ) := by
    apply Complex.ext <;> simp [toC, nearPoint]
  have habs : Complex.abs (toC nearPoint) = 4097 / 1024 := by
    rw [hc, Complex.abs_ofReal]
    exact abs_of_nonneg (by norm_num)
  have harg : Complex.arg (toC nearPoint) = 0 := by
    rw [hc]
    exact Complex.arg_ofReal_of_nonneg (by norm_num)
  have hang : angle 0 = 1.97 := by
    unfold angle
    norm_num
  have hs1 : ((4097 / 1024 : ℝ)) ^ (-2.31 : ℝ) ≤ 1 / 4 ^ 2 :=
    rpow_bound 4 _ (by norm_num) (by norm_num)
  have hs2 : (1 / 65 : ℝ) ≤ ((4097 / 1024 : ℝ)) ^ (-2.31 : ℝ) := by
    have h1 : ((4097 / 1024 : ℝ)) ^ (-3 : ℝ) ≤ ((4097 / 1024 : ℝ)) ^ (-2.31 : ℝ) :=
      Real.rpow_le_rpow_of_exponent_le (by norm_num) (by norm_num)
    have h2 : ((4097 / 1024 : ℝ)) ^ (-3 : ℝ) = ((4097 / 1024 : ℝ) ^ 3)⁻¹ := by
      rw [Real.rpow_neg (by norm_num)]
      congr 1
      exact_mod_cast Real.rpow_natCast (4097 / 1024 : ℝ) 3
    rw [h2] at h1
    norm_num at h1 ⊢
    linarith
  have hcos := cos_C_le
  have hcs := Real.sin_sq_add_cos_sq (1.97 : ℝ)
  rw [real_step, habs, harg, hang, hc]
  generalize ((4097 / 1024 : ℝ)) ^ (-2.31 : ℝ) = s at hs1 hs2
  have hsq : Complex.abs ((s : ℂ) * Complex.exp (((1.97 : ℝ) : ℂ) * Complex.I) +
      ((4097 / 1024 : ℝ) : ℂ)) ^ 2 ≤ 4 ^ 2 := by
    rw [Complex.sq_abs, Complex.normSq_apply]
    simp only [Complex.add_re, Complex.add_im, Complex.mul_re, Complex.mul_im,
      Complex.ofReal_re, Complex.ofReal_im, Complex.exp_ofReal_mul_I_re,
      Complex.exp_ofReal_mul_I_im, zero_mul, sub_zero, add_zero]
    generalize Real.cos 1.97 = co at hcos hcs
    generalize Real.sin 1.97 = si at hcs
    norm_num at hs1
    have hs0 : 0 ≤ s := by linarith
    have hprod : s * co ≤ s * (-0.3) := mul_le_mul_of_nonneg_left hcos hs0
    have hss : s * s ≤ s * (1 / 16) := mul_le_mul_of_nonneg_left hs1 hs0
    have hexpand : (s * co + 4097 / 1024) * (s * co + 4097 / 1024) + s * si * (s * si) =
        s * s * (si ^ 2 + co ^ 2) + 2 * (4097 / 1024) * (s * co) + (4097 / 1024) ^ 2 := by
      ring
    rw [hexpand, hcs]
    norm_num at hprod ⊢
    linarith
  exact le_trans (le_abs_self _) (abs_le_of_sq_le_sq hsq (by norm_num))

theorem real_far_abs : Complex.abs (toC farPoint) = 5 := by
  have hc : toC farPoint = ((5 : ℝ) : ℂ) := by
    apply Complex.ext <;> simp [toC, farPoint]
  rw [hc, Complex.abs_ofReal]
  exact abs_of_nonneg (by norm_num)

theorem real_near_abs : Complex.abs (toC nearPoint) = 4097 / 1024 := by
  have hc : toC nearPoint = ((4097 / 1024 : ℝ) : ℂ) := by
    apply Complex.ext <;> simp [toC, nearPoint]
  rw [hc, Complex.abs_ofReal]
  exact abs_of_nonneg (by norm_num)

/-- The colour of a count other than the cap, channel by channel. -/
theorem sampleColour_below (iter : Nat) (h : iter < MAX_ITER) :
    sampleColour MAX_ITER iter = ⟨15 * iter % 256, 3 * iter % 256, 5 * iter % 256⟩ := by
  have h15 := (channel_eq iter 15 (by norm_num) h).2.2
  have h3 := (channel_eq iter 3 (by norm_num) h).2.2
  have h5 := (channel_eq iter 5 (by norm_num) h).2.2
  simp only [Nat.cast_ofNat] at h15 h3 h5
  unfold sampleColour
  rw [if_neg (Nat.ne_of_lt h), h15, h3, h5]

/-! ## Filling the buffer -/

/-- A pixel store that fits in the row succeeds and changes exactly its three bytes. -/
theorem writePixel_spec (row : List Nat) (x : Nat) (col : RGB) (h : x * 3 + 2 < row.length) :
    ∃ row1, writePixel row x col = some row1 ∧ row1.length = row.length ∧
      ∀ i, row1[i]? =
        if i = x * 3 then some col.red else if i = x * 3 + 1 then some col.green
        else if i = x * 3 + 2 then some col.blue else row[i]? := by
  refine ⟨((row.set (x * 3) col.red).set (x * 3 + 1) col.green).set (x * 3 + 2) col.blue,
    ?_, by simp, ?_⟩
  · have h0 : x * 3 < row.length := by omega
    have h1 : x * 3 + 1 < (row.set (x * 3) col.red).length := by
      rw [List.length_set]; omega
    have h2 : x * 3 + 2 <
        ((row.set (x * 3) col.red).set (x * 3 + 1) col.green).length := by
      rw [List.length_set, List.length_set]; exact h
    simp only [writePixel, writeByte, if_pos h0, if_pos h1, if_pos h2, Option.bind_eq_bind,
      Option.some_bind]
  · intro i
    simp only [List.getElem?_set, List.length_set]
    by_cases h0 : i = x * 3
    · subst h0
      have : x * 3 < row.length := by omega
      simp [this]
    · by_cases h1 : i = x * 3 + 1
      · subst h1
        have : x * 3 + 1 < row.length := by omega
        simp [this]
      · by_cases h2 : i = x * 3 + 2
        · subst h2
          simp [h]
        · simp [h0, h1, h2, Ne.symm h0, Ne.symm h1, Ne.symm h2]

/-- The `x` loop run over the first `n` pixels of a row of `w` pixels, with
any colour function: every store is in bounds, the first `3 n` bytes hold the
colours and the others are unchanged. -/
theorem fillRow_prefix (col : Nat → RGB) (w : Nat) (row : List Nat)
    (hlen : row.length = w * 3) (n : Nat) (hn : n ≤ w) :
    ∃ row1, (List.range n).foldlM (fun r x => writePixel r x (col x)) row = some row1 ∧
      row1.length = w * 3 ∧
      ∀ i, row1[i]? = if i < n * 3 then some ((col (i / 3)).chan (i % 3)) else row[i]? := by
  induction n with
  | zero =>
    exact ⟨row, by simp, hlen, by simp⟩
  | succ n ih =>
    obtain ⟨r0, hr0, hl0, hg0⟩ := ih (by omega)
    obtain ⟨r1, hr1, hl1, hg1⟩ := writePixel_spec r0 n (col n) (by omega)
    refine ⟨r1, ?_, by omega, ?_⟩
    · rw [List.range_succ, List.foldlM_append, hr0]
      simp [hr1]
    · intro i
      rw [hg1 i, hg0 i]
      by_cases h0 : i = n * 3
      · subst h0
        have hd : n * 3 / 3 = n := by omega
        have hm : n * 3 % 3 = 0 := by omega
        have hlt : n * 3 < (n + 1) * 3 := by omega
        simp [RGB.chan, hd, hm, hlt]
      · by_cases h1 : i = n * 3 + 1
        · subst h1
          have hd : (n * 3 + 1) / 3 = n := by omega
          have hm : (n * 3 + 1) % 3 = 1 := by omega
          have hlt : n * 3 + 1 < (n + 1) * 3 := by omega
          simp [RGB.chan, hd, hm, hlt]
        · by_cases h2 : i = n * 3 + 2
          · subst h2
            have hd : (n * 3 + 2) / 3 = n := by omega
            have hm : (n * 3 + 2) % 3 = 2 := by omega
            have hlt : n * 3 + 2 < (n + 1) * 3 := by omega
            simp [RGB.chan, hd, hm, hlt]
          · simp only [if_neg h0, if_neg h1, if_neg h2]
            by_cases hlt : i < n * 3
            · have : i < (n + 1) * 3 := by omega
              simp [hlt, this]
            · have : ¬ i < (n + 1) * 3 := by omega
              simp [hlt, this]

/-- The `x` loop on a row of the right length stores in bounds only and
leaves the row determined by the pixel colours of line `y`, whatever the row
held before. -/
theorem renderRow_eq {F : Type} (ops : CMath F) (y : Nat) (row : List Nat)
    (hlen : row.length = WIDTH * 3) :
    renderRow ops y row = some (expectedRow ops y) := by
  obtain ⟨r1, hr1, hl1, hg1⟩ :=
    fillRow_prefix (fun x => pixelColour ops x y) WIDTH row hlen WIDTH (le_refl _)
  unfold renderRow
  rw [hr1]
  refine congrArg some ?_
  apply List.ext_getElem?
  intro i
  rw [hg1 i]
  unfold expectedRow
  rw [List.getElem?_map]
  by_cases hi : i < WIDTH * 3
  · rw [if_pos hi, List.getElem?_range hi]
    rfl
  · rw [if_neg hi, List.getElem?_eq_none (by omega),
      List.getElem?_eq_none (by rw [List.length_range]; omega)]
    rfl

theorem expectedRow_length {F : Type} (ops : CMath F) (y : Nat) :
    (expectedRow ops y).length = WIDTH * 3 := by
  unfold expectedRow
  rw [List.length_map, List.length_range]

/-- The `y` loop run over any list of line numbers below the height, on a
buffer of well-sized rows: the lines named hold their determined contents and
the others are unchanged. -/
theorem renderLines_spec {F : Type} (ops : CMath F) (order : List Nat) :
    ∀ buf : List (List Nat), (∀ y ∈ order, y < buf.length) →
      (∀ (j : Nat) (row : List Nat), buf[j]? = some row → row.length = WIDTH * 3) →
      ∃ buf1, order.foldlM (renderLine ops) buf = some buf1 ∧
        buf1.length = buf.length ∧
        ∀ j, buf1[j]? =
          if j ∈ order ∧ j < buf.length then some (expectedRow ops j) else buf[j]? := by
  induction order with
  | nil =>
    intro buf _ _
    exact ⟨buf, by simp, rfl, by simp⟩
  | cons y ys ih =>
    intro buf hlt hrow
    have hy : y < buf.length := hlt y (List.mem_cons_self _ _)
    have hget : buf[y]? = some buf[y] := List.getElem?_eq_getElem hy
    have hline : renderLine ops buf y = some (buf.set y (expectedRow ops y)) := by
      unfold renderLine
      rw [hget]
      simp [renderRow_eq ops y buf[y] (hrow y _ hget)]
    obtain ⟨b1, hb1, hl1, hg1⟩ := ih (buf.set y (expectedRow ops y))
      (by
        intro j hj
        rw [List.length_set]
        exact hlt j (List.mem_cons_of_mem _ hj))
      (by
        intro j row hj
        rw [List.getElem?_set] at hj
        by_cases hjy : y = j
        · rw [if_pos hjy, if_pos hy] at hj
          rw [← Option.some.inj hj]
          exact expectedRow_length ops y
        · rw [if_neg hjy] at hj
          exact hrow j row hj)
    rw [List.length_set] at hl1 hg1
    refine ⟨b1, ?_, hl1, ?_⟩
    · rw [List.foldlM_cons, hline]
      exact hb1
    · intro j
      rw [hg1 j, List.getElem?_set]
      by_cases hjy : y = j
      · subst hjy
        simp [hy]
      · have hne : j ≠ y := Ne.symm hjy
        simp [hjy, hne]

/-- The whole of `generate_fractal` on a buffer of `HEIGHT` rows of
`WIDTH * 3` bytes, lines completed in any order that names each once. -/
theorem generate_fractal_eq {F : Type} (ops : CMath F) (order : List Nat)
    (buf : List (List Nat)) (hperm : order.Perm (List.range HEIGHT))
    (hrows : buf.length = HEIGHT) (hcols : ∀ row ∈ buf, row.length = WIDTH * 3) :
    generate_fractal ops order buf = some (expectedImage ops) := by
  have hmem : ∀ y, y ∈ order ↔ y < HEIGHT := by
    intro y
    rw [hperm.mem_iff, List.mem_range]
  obtain ⟨b1, hb1, hl1, hg1⟩ := renderLines_spec ops order buf
    (by intro y hy; rw [hrows]; exact (hmem y).1 hy)
    (by
      intro j row hj
      exact hcols row (List.mem_iff_getElem?.2 ⟨j, hj⟩))
  unfold generate_fractal
  rw [hb1]
  refine congrArg some ?_
  apply List.ext_getElem?
  intro j
  rw [hg1 j]
  unfold expectedImage
  rw [List.getElem?_map]
  by_cases hj : j < HEIGHT
  · rw [if_pos ⟨(hmem j).2 hj, by rw [hrows]; exact hj⟩, List.getElem?_range hj]
    rfl
  · rw [if_neg (fun h => hj ((hmem j).1 h.1)), List.getElem?_eq_none (by omega),
      List.getElem?_eq_none (by rw [List.length_range]; omega)]
    rfl

/-! ## Averaging -/

theorem toByte_lt (x : Int) : toByte x < 256 := by
  unfold toByte
  omega

theorem channel_lt (iter : Nat) (k : Int) : channel iter k < 256 := by
  unfold channel
  exact toByte_lt _

/-- Every channel of a sample colour is a byte. -/
theorem sampleColour_lt (cap iter : Nat) :
    (sampleColour cap iter).red < 256 ∧ (sampleColour cap iter).green < 256 ∧
      (sampleColour cap iter).blue < 256 := by
  unfold sampleColour
  split
  · exact ⟨by norm_num, by norm_num, by norm_num⟩
  · dsimp only
    exact ⟨channel_lt iter 15, channel_lt iter 3, channel_lt iter 5⟩

/-- Truncating a quarter of a natural number gives the integer quotient. -/
theorem truncQ_quarter (n : Nat) :
    truncQ ((n : ℚ) / ((4 : Int) : ℚ)) = ((n / 4 : Nat) : Int) := by
  have hq : (0 : ℚ) ≤ (n : ℚ) / ((4 : Int) : ℚ) := by positivity
  unfold truncQ
  rw [Int.tdiv_eq_ediv (Rat.num_nonneg.2 hq) (Int.ofNat_nonneg _), ← Rat.floor_def]
  have h4 : (((4 : Int) : ℚ)) = ((4 : Nat) : ℚ) := by norm_num
  rw [h4, Rat.floor_natCast_div_natCast]
  norm_cast

/-- The stored channel for a total of at most four bytes: the integer
quotient by 4, which is itself a byte. -/
theorem storeChannel_quarter (n : Nat) (hn : n ≤ 4 * 255) :
    storeChannel (n : ℚ) 4 = n / 4 ∧ n / 4 ≤ 255 := by
  have hle : n / 4 ≤ 255 := by omega
  refine ⟨?_, hle⟩
  unfold storeChannel
  rw [truncQ_quarter]
  unfold toByte
  omega

/-- The accumulators after the four additions. -/
theorem averageColour_four (c1 c2 c3 c4 : RGB) :
    averageColour [c1, c2, c3, c4] =
      ⟨storeChannel ((c1.red + c2.red + c3.red + c4.red : Nat) : ℚ) 4,
       storeChannel ((c1.green + c2.green + c3.green + c4.green : Nat) : ℚ) 4,
       storeChannel ((c1.blue + c2.blue + c3.blue + c4.blue : Nat) : ℚ) 4⟩ := by
  simp only [averageColour, List.foldl_cons, List.foldl_nil, zero_add]
  push_cast
  rfl

/-- The sum of one channel over the four sub-samples is at most `4 * 255`. -/
theorem sampleSum_le {F : Type} (ops : CMath F) (x y : Nat) :
    sampleSum ops x y RGB.red ≤ 4 * 255 ∧ sampleSum ops x y RGB.green ≤ 4 * 255 ∧
      sampleSum ops x y RGB.blue ≤ 4 * 255 := by
  have h00 := sampleColour_lt MAX_ITER (escapeTime ops MAX_ITER (samplePoint ops.toArith x y 0 0))
  have h10 := sampleColour_lt MAX_ITER (escapeTime ops MAX_ITER (samplePoint ops.toArith x y 1 0))
  have h01 := sampleColour_lt MAX_ITER (escapeTime ops MAX_ITER (samplePoint ops.toArith x y 0 1))
  have h11 := sampleColour_lt MAX_ITER (escapeTime ops MAX_ITER (samplePoint ops.toArith x y 1 1))
  simp only [sampleSum, subsampleColour]
  refine ⟨?_, ?_, ?_⟩ <;> omega

/-- The pixel colour in terms of the channel sums. -/
theorem pixelColour_eq {F : Type} (ops : CMath F) (x y : Nat) :
    pixelColour ops x y =
      ⟨sampleSum ops x y RGB.red / 4, sampleSum ops x y RGB.green / 4,
       sampleSum ops x y RGB.blue / 4⟩ := by
  obtain ⟨hr, hg, hb⟩ := sampleSum_le ops x y
  have h := averageColour_four (subsampleColour ops x y 0 0) (subsampleColour ops x y 1 0)
    (subsampleColour ops x y 0 1) (subsampleColour ops x y 1 1)
  have hp : pixelColour ops x y = averageColour [subsampleColour ops x y 0 0,
      subsampleColour ops x y 1 0, subsampleColour ops x y 0 1,
      subsampleColour ops x y 1 1] := rfl
  rw [hp, h]
  have e1 := (storeChannel_quarter _ hr).1
  have e2 := (storeChannel_quarter _ hg).1
  have e3 := (storeChannel_quarter _ hb).1
  unfold sampleSum at e1 e2 e3
  rw [e1, e2, e3]
  rfl

/-! ## Sample coordinates in exact arithmetic -/

/-- In exact rational arithmetic the coordinate of sub-sample `s` of pixel
index `i` on an axis of `n` pixels is `(4 i + 2 s + 1 - 2 n) / n`. -/
theorem sampleCoord_rat (n i s : Nat) (hn : 0 < n) :
    sampleCoord ratArith n i s = (((4 * i + 2 * s + 1 : Int) - 2 * n : Int) : ℚ) / (n : ℚ) := by
  have hn0 : (n : ℚ) ≠ 0 := by exact_mod_cast (Nat.pos_iff_ne_zero.1 hn)
  simp only [sampleCoord, ratArith]
  push_cast
  field_simp
  ring

/-- The exact coordinate is never 0 and lies strictly between -2 and 2. -/
theorem sampleCoord_bounds (n i s : Nat) (hi : i < n) (hs : s < 2) :
    0 < |sampleCoord ratArith n i s| ∧ |sampleCoord ratArith n i s| < 2 := by
  have hn : 0 < n := by omega
  have hnq : (0 : ℚ) < (n : ℚ) := by exact_mod_cast hn
  rw [sampleCoord_rat n i s hn]
  constructor
  · rw [abs_pos]
    apply div_ne_zero
    · have : ((4 * i + 2 * s + 1 : Int) - 2 * n : Int) ≠ 0 := by omega
      exact_mod_cast this
    · exact ne_of_gt hnq
  · rw [abs_lt]
    constructor
    · rw [lt_div_iff₀ hnq]
      have : (-2 * (n : Int)) < ((4 * i + 2 * s + 1 : Int) - 2 * n : Int) := by omega
      have h2 : ((-2 * (n : Int) : Int) : ℚ) < (((4 * i + 2 * s + 1 : Int) - 2 * n : Int) : ℚ) := by
        exact_mod_cast this
      push_cast at h2 ⊢
      linarith
    · rw [div_lt_iff₀ hnq]
      have : ((4 * i + 2 * s + 1 : Int) - 2 * n : Int) < 2 * (n : Int) := by omega
      have h2 : (((4 * i + 2 * s + 1 : Int) - 2 * n : Int) : ℚ) < ((2 * (n : Int) : Int) : ℚ) := by
        exact_mod_cast this
      push_cast at h2 ⊢
      linarith

/-- The coordinate in exact real arithmetic is the rational one. -/
theorem real_sampleCoord (n i s : Nat) :
    sampleCoord realMath.toArith n i s = ((sampleCoord ratArith n i s : ℚ) : ℝ) := by
  simp only [sampleCoord, ratArith, realMath]
  push_cast
  rfl

/-- A pair of reals, one of them not 0, has positive modulus. -/
theorem real_cabs_pos (z : Cplx ℝ) (h : z.re ≠ 0) : 0 < realMath.cabs z := by
  show 0 < Complex.abs (toC z)
  rw [AbsoluteValue.pos_iff]
  intro h0
  exact h (congrArg Complex.re h0)

/-- Bounds on the modulus from bounds on the sum of squares. -/
theorem real_abs_bounds (z : Cplx ℝ) (h1 : 1.9 ^ 2 ≤ z.re * z.re + z.im * z.im)
    (h2 : z.re * z.re + z.im * z.im ≤ 3.3 ^ 2) :
    1.9 ≤ Complex.abs (toC z) ∧ Complex.abs (toC z) ≤ 3.3 := by
  have habs : Complex.abs (toC z) = Real.sqrt (z.re * z.re + z.im * z.im) := by
    rw [Complex.abs_apply, Complex.normSq_apply]
    rfl
  rw [habs]
  constructor
  · exact Real.le_sqrt_of_sq_le h1
  · rw [Real.sqrt_le_left (by norm_num)]
    exact h2

/-- In exact real arithmetic the four sub-samples of the corner pixel `(0, 0)`
never escape. -/
theorem real_corner_interior (sx sy : Nat) (hsx : sx < 2) (hsy : sy < 2) :
    escapeTime realMath MAX_ITER (samplePoint realMath.toArith 0 0 sx sy) = MAX_ITER := by
  have hre : (samplePoint realMath.toArith 0 0 sx sy).re =
      ((((4 * (0 : Nat) + 2 * sx + 1 : Int) - 2 * (1980 : Nat) : Int) : ℚ) / ((1980 : Nat) : ℚ) : ℚ) := by
    show sampleCoord realMath.toArith 1980 0 sx = _
    rw [real_sampleCoord, sampleCoord_rat 1980 0 sx (by norm_num)]
  have him : (samplePoint realMath.toArith 0 0 sx sy).im =
      ((((4 * (0 : Nat) + 2 * sy + 1 : Int) - 2 * (1080 : Nat) : Int) : ℚ) / ((1080 : Nat) : ℚ) : ℚ) := by
    show sampleCoord realMath.toArith 1080 0 sy = _
    rw [real_sampleCoord, sampleCoord_rat 1080 0 sy (by norm_num)]
  have hb : 1.9 ≤ Complex.abs (toC (samplePoint realMath.toArith 0 0 sx sy)) ∧
      Complex.abs (toC (samplePoint realMath.toArith 0 0 sx sy)) ≤ 3.3 := by
    apply real_abs_bounds
    · rw [hre, him]
      interval_cases sx <;> interval_cases sy <;> norm_num
    · rw [hre, him]
      interval_cases sx <;> interval_cases sy <;> norm_num
  exact real_interior _ MAX_ITER hb.1 hb.2

/-! ## The claims -/

/-- C1: for every sample point `c`, with `z_0 = c` and
`z_(k+1) = T(|z_k|, arg z_k) + c`, the escape-time loop returns the least
`n < MAX_ITER` such that `|z_(n+1)| > ESCAPE_RADIUS` when there is one, and
`MAX_ITER` when there is none.  This holds for every interpretation of the
double operations. -/
theorem C1_escapeTime_least {F : Type} (ops : CMath F) (c : Cplx F) :
    (escapeTime ops MAX_ITER c < MAX_ITER ∧
      ops.gt (ops.cabs (orbit ops c (escapeTime ops MAX_ITER c + 1)))
        (ESCAPE_RADIUS ops.toArith) = true ∧
      ∀ m, m < escapeTime ops MAX_ITER c →
        ops.gt (ops.cabs (orbit ops c (m + 1))) (ESCAPE_RADIUS ops.toArith) = false) ∨
    (escapeTime ops MAX_ITER c = MAX_ITER ∧
      ∀ m, m < MAX_ITER →
        ops.gt (ops.cabs (orbit ops c (m + 1))) (ESCAPE_RADIUS ops.toArith) = false) := by
  obtain ⟨_, h2, h3, h4⟩ := escapeLoop_spec ops c MAX_ITER 0
  have h0 : escapeLoop ops c MAX_ITER 0 (orbit ops c 0) = escapeTime ops MAX_ITER c := rfl
  rw [h0] at h2 h3 h4
  by_cases hlt : escapeTime ops MAX_ITER c < MAX_ITER
  · left
    exact ⟨hlt, h4 (by omega), fun m hm => h3 m (Nat.zero_le m) hm⟩
  · right
    have heq : escapeTime ops MAX_ITER c = MAX_ITER := by omega
    refine ⟨heq, fun m hm => h3 m (Nat.zero_le m) ?_⟩
    rw [heq]
    exact hm

/-- C2, as stated, fails in exact real arithmetic: the point `4 + 1/1024` on
the real axis has modulus above 4, yet its first update has modulus at most 4
and the loop does not stop at count 0. -/
theorem C2_counterexample :
    realMath.gt (realMath.cabs nearPoint) (ESCAPE_RADIUS realMath.toArith) = true ∧
      escapeTime realMath MAX_ITER nearPoint ≠ 0 := by
  constructor
  · have h : escaped realMath nearPoint = true := by
      rw [real_escaped, real_near_abs]
      norm_num
    exact h
  · intro h0
    have hesc := (escapeTime_eq_zero_iff realMath MAX_ITER nearPoint (by decide)).1 h0
    rw [real_escaped] at hesc
    have := real_near_stays
    linarith

/-- C2, amended: for every interpretation of the double operations and every
`c`, the count is 0 exactly when the first updated value `T(|c|, arg c) + c`
has modulus above `ESCAPE_RADIUS` (the test is never applied to `c` itself);
and in exact real arithmetic this is so for every `c` of modulus above
`4.0625`. -/
theorem C2_zero_iff_first_update :
    (∀ (F : Type) (ops : CMath F) (c : Cplx F),
      escapeTime ops MAX_ITER c = 0 ↔
        ops.gt (ops.cabs (Cplx.add ops.toArith (T ops (ops.cabs c) (ops.carg c)) c))
          (ESCAPE_RADIUS ops.toArith) = true) ∧
    (∀ c : Cplx ℝ, 4.0625 < realMath.cabs c → escapeTime realMath MAX_ITER c = 0) := by
  constructor
  · intro F ops c
    exact escapeTime_eq_zero_iff ops MAX_ITER c (by decide)
  · intro c hc
    exact (escapeTime_eq_zero_iff realMath MAX_ITER c (by decide)).2 (real_far_escapes c hc)

/-- C2, amended, applied to the point 5 on the real axis. -/
theorem C2_zero_iff_first_update_witness :
    4.0625 < realMath.cabs farPoint ∧ escapeTime realMath MAX_ITER farPoint = 0 := by
  have h : 4.0625 < realMath.cabs farPoint := by
    show 4.0625 < Complex.abs (toC farPoint)
    rw [real_far_abs]
    norm_num
  exact ⟨h, C2_zero_iff_first_update.2 farPoint h⟩

/-- C3: for every sample point, whatever the double operations produce, the
count left in `iter` when the loop ends satisfies `0 ≤ iter ≤ MAX_ITER = 2000`;
in particular the `int` counter never leaves the 32-bit range. -/
theorem C3_escapeTime_range {F : Type} (ops : CMath F) (c : Cplx F) :
    0 ≤ escapeTime ops MAX_ITER c ∧ escapeTime ops MAX_ITER c ≤ 2000 ∧
      wrap32 (escapeTime ops MAX_ITER c : Int) = (escapeTime ops MAX_ITER c : Int) := by
  have h := escapeLoop_le ops c MAX_ITER 0 c
  have hle : escapeTime ops MAX_ITER c ≤ 2000 := by
    simpa [escapeTime, MAX_ITER] using h
  refine ⟨Nat.zero_le _, hle, (small_int_byte _ ?_).1⟩
  have : (2000 : Nat) < 2 ^ 31 := by norm_num
  omega

/-- C4: with the iteration cap as a parameter, for caps `M ≤ M1`, a run that
returns `k < M` under cap `M` returns the same `k` under cap `M1`, and the
sample colour derived from it is the same under both caps. -/
theorem C4_cap_independent {F : Type} (ops : CMath F) (c : Cplx F) (M M1 : Nat)
    (hM : M ≤ M1) (hk : escapeTime ops M c < M) :
    escapeTime ops M1 c = escapeTime ops M c ∧
      sampleColour M1 (escapeTime ops M1 c) = sampleColour M (escapeTime ops M c) := by
  have heq : escapeTime ops M1 c = escapeTime ops M c :=
    escapeLoop_mono ops c M M1 0 c hM (by simpa [escapeTime] using hk)
  refine ⟨heq, ?_⟩
  rw [heq]
  unfold sampleColour
  rw [if_neg (by omega), if_neg (by omega)]

/-- C4 at the point 5 on the real axis in exact real arithmetic, caps 1 and 2000. -/
theorem C4_cap_independent_witness :
    escapeTime realMath 1 farPoint < 1 ∧
      escapeTime realMath MAX_ITER farPoint = escapeTime realMath 1 farPoint ∧
      sampleColour MAX_ITER (escapeTime realMath MAX_ITER farPoint) =
        sampleColour 1 (escapeTime realMath 1 farPoint) := by
  have hfar : escaped realMath (step realMath farPoint farPoint) = true :=
    real_far_escapes farPoint (by rw [real_far_abs]; norm_num)
  have h1 : escapeTime realMath 1 farPoint < 1 := by
    rw [(escapeTime_eq_zero_iff realMath 1 farPoint (by decide)).2 hfar]
    decide
  exact ⟨h1, C4_cap_independent realMath farPoint 1 MAX_ITER (by decide) h1⟩

/-- C5: for every count `0 ≤ iter < MAX_ITER` the red, green and blue values
computed by the code (32-bit product, C remainder by 256, store in a byte)
are `(15*iter) mod 256`, `(3*iter) mod 256`, `(5*iter) mod 256`; the products
do not overflow, the remainders are not negative, and each value is in `[0, 255]`. -/
theorem C5_channels_exact (iter : Nat) (h : iter < MAX_ITER) :
    sampleColour MAX_ITER iter = ⟨15 * iter % 256, 3 * iter % 256, 5 * iter % 256⟩ ∧
    (wrap32 ((iter : Int) * 15) = (iter : Int) * 15 ∧
      wrap32 ((iter : Int) * 3) = (iter : Int) * 3 ∧
      wrap32 ((iter : Int) * 5) = (iter : Int) * 5) ∧
    (0 ≤ cRem (wrap32 ((iter : Int) * 15)) 256 ∧
      0 ≤ cRem (wrap32 ((iter : Int) * 3)) 256 ∧
      0 ≤ cRem (wrap32 ((iter : Int) * 5)) 256) ∧
    ((sampleColour MAX_ITER iter).red ≤ 255 ∧ (sampleColour MAX_ITER iter).green ≤ 255 ∧
      (sampleColour MAX_ITER iter).blue ≤ 255) := by
  have h15 := channel_eq iter 15 (by norm_num) h
  have h3 := channel_eq iter 3 (by norm_num) h
  have h5 := channel_eq iter 5 (by norm_num) h
  simp only [Nat.cast_ofNat] at h15 h3 h5
  refine ⟨sampleColour_below iter h, ⟨h15.1, h3.1, h5.1⟩, ⟨?_, ?_, ?_⟩, ?_⟩
  · rw [h15.2.1]; exact Int.ofNat_nonneg _
  · rw [h3.2.1]; exact Int.ofNat_nonneg _
  · rw [h5.2.1]; exact Int.ofNat_nonneg _
  · rw [sampleColour_below iter h]
    refine ⟨?_, ?_, ?_⟩ <;> simp only <;> omega

/-- C5 at `iter = 1999`, the largest count below the cap. -/
theorem C5_channels_exact_witness :
    1999 < MAX_ITER ∧ sampleColour MAX_ITER 1999 = ⟨15 * 1999 % 256, 3 * 1999 % 256, 5 * 1999 % 256⟩ :=
  ⟨by decide, (C5_channels_exact 1999 (by decide)).1⟩

/-- C6: for every pixel, each stored channel equals
`floor((s1 + s2 + s3 + s4) / 4)` for that channel's values at the four
sub-samples; the truncated quotient computed before the store is already in
`[0, 255]`, so the conversion to a byte changes nothing. -/
theorem C6_pixel_average {F : Type} (ops : CMath F) (x y : Nat) :
    ((pixelColour ops x y).red = sampleSum ops x y RGB.red / 4 ∧
      (pixelColour ops x y).green = sampleSum ops x y RGB.green / 4 ∧
      (pixelColour ops x y).blue = sampleSum ops x y RGB.blue / 4) ∧
    (truncQ ((sampleSum ops x y RGB.red : ℚ) / ((4 : Int) : ℚ)) =
        ((sampleSum ops x y RGB.red / 4 : Nat) : Int) ∧
      truncQ ((sampleSum ops x y RGB.green : ℚ) / ((4 : Int) : ℚ)) =
        ((sampleSum ops x y RGB.green / 4 : Nat) : Int) ∧
      truncQ ((sampleSum ops x y RGB.blue : ℚ) / ((4 : Int) : ℚ)) =
        ((sampleSum ops x y RGB.blue / 4 : Nat) : Int)) ∧
    (sampleSum ops x y RGB.red / 4 ≤ 255 ∧ sampleSum ops x y RGB.green / 4 ≤ 255 ∧
      sampleSum ops x y RGB.blue / 4 ≤ 255) := by
  obtain ⟨hr, hg, hb⟩ := sampleSum_le ops x y
  refine ⟨?_, ⟨truncQ_quarter _, truncQ_quarter _, truncQ_quarter _⟩, ?_⟩
  · rw [pixelColour_eq]
    exact ⟨rfl, rfl, rfl⟩
  · exact ⟨by omega, by omega, by omega⟩

/-- C7: when the four sub-samples of pixel `(x, y)` all have escape time
`MAX_ITER`, the pixel colour is `(0, 0, 0)` and the three stores of the pixel
into its row write the bytes 0, 0, 0. -/
theorem C7_interior_black {F : Type} (ops : CMath F) (x y : Nat) (row : List Nat)
    (hx : x < WIDTH) (hlen : row.length = WIDTH * 3)
    (h : ∀ s ∈ subsamples,
      escapeTime ops MAX_ITER (samplePoint ops.toArith x y s.1 s.2) = MAX_ITER) :
    pixelColour ops x y = ⟨0, 0, 0⟩ ∧
    ∃ row1, writePixel row x (pixelColour ops x y) = some row1 ∧
      row1[x * 3]? = some 0 ∧ row1[x * 3 + 1]? = some 0 ∧ row1[x * 3 + 2]? = some 0 := by
  have h00 := h (0, 0) (by simp [subsamples])
  have h10 := h (1, 0) (by simp [subsamples])
  have h01 := h (0, 1) (by simp [subsamples])
  have h11 := h (1, 1) (by simp [subsamples])
  have hblack : sampleColour MAX_ITER MAX_ITER = ⟨0, 0, 0⟩ := by
    unfold sampleColour
    rw [if_pos rfl]
  have hcol : pixelColour ops x y = ⟨0, 0, 0⟩ := by
    rw [pixelColour_eq]
    simp only [sampleSum, subsampleColour]
    dsimp only at h00 h10 h01 h11
    rw [h00, h10, h01, h11, hblack]
    rfl
  refine ⟨hcol, ?_⟩
  have hW : x * 3 + 2 < row.length := by
    have : x < 1980 := hx
    have : row.length = 1980 * 3 := hlen
    omega
  obtain ⟨r1, hr1, _, hg1⟩ := writePixel_spec row x (pixelColour ops x y) hW
  refine ⟨r1, hr1, ?_, ?_, ?_⟩
  · rw [hg1, hcol]; simp
  · rw [hg1, hcol]; simp
  · rw [hg1, hcol]; simp

/-- C7 at the corner pixel `(0, 0)` in exact real arithmetic, whose four
sub-samples never escape, on a row filled with the byte 7. -/
theorem C7_interior_black_witness :
    pixelColour realMath 0 0 = ⟨0, 0, 0⟩ ∧
    ∃ row1, writePixel (List.replicate (WIDTH * 3) 7) 0 (pixelColour realMath 0 0) = some row1 ∧
      row1[0 * 3]? = some 0 ∧ row1[0 * 3 + 1]? = some 0 ∧ row1[0 * 3 + 2]? = some 0 :=
  C7_interior_black realMath 0 0 (List.replicate (WIDTH * 3) 7) (by decide)
    (List.length_replicate _ _)
    (by
      intro s hs
      simp only [subsamples, List.mem_cons, List.mem_singleton, List.not_mem_nil, or_false] at hs
      rcases hs with rfl | rfl | rfl | rfl <;>
        exact real_corner_interior _ _ (by norm_num) (by norm_num))

/-- C8: on any buffer of `HEIGHT` rows of `WIDTH * 3` bytes, with the lines
completed in any order, `generate_fractal` makes no store out of bounds (the
line numbers are below `HEIGHT`, the byte indices `3x+2` below `WIDTH * 3`,
and the run does not fail), and the buffer it leaves is the image determined
by the pixel colours alone: it has `HEIGHT` rows, and byte `3x + k` of row `y`
is channel `k` of the colour of pixel `(x, y)`.  The result mentions neither
the initial contents nor the order. -/
theorem C8_buffer_filled {F : Type} (ops : CMath F) (order : List Nat)
    (buf : List (List Nat)) (hperm : order.Perm (List.range HEIGHT))
    (hrows : buf.length = HEIGHT) (hcols : ∀ row ∈ buf, row.length = WIDTH * 3) :
    generate_fractal ops order buf = some (expectedImage ops) ∧
    (∀ y ∈ order, y < HEIGHT) ∧
    (∀ x, x < WIDTH → x * 3 + 2 < WIDTH * 3) ∧
    (expectedImage ops).length = HEIGHT ∧
    ∀ x y k, x < WIDTH → y < HEIGHT → k < 3 →
      ((expectedImage ops)[y]?.bind fun row => row[x * 3 + k]?) =
        some ((pixelColour ops x y).chan k) := by
  refine ⟨generate_fractal_eq ops order buf hperm hrows hcols, ?_, ?_, ?_, ?_⟩
  · intro y hy
    exact List.mem_range.1 (hperm.mem_iff.1 hy)
  · intro x hx
    omega
  · unfold expectedImage
    rw [List.length_map, List.length_range]
  · intro x y k hx hy hk
    have hrow : (expectedImage ops)[y]? = some (expectedRow ops y) := by
      unfold expectedImage
      rw [List.getElem?_map, List.getElem?_range hy]
      rfl
    have hi : x * 3 + k < WIDTH * 3 := by omega
    have hd : (x * 3 + k) / 3 = x := by omega
    have hm : (x * 3 + k) % 3 = k := by omega
    rw [hrow, Option.some_bind]
    unfold expectedRow
    rw [List.getElem?_map, List.getElem?_range hi]
    show some ((pixelColour ops ((x * 3 + k) / 3) y).chan ((x * 3 + k) % 3)) = _
    rw [hd, hm]

/-- C8 in exact real arithmetic, lines in increasing order, on a buffer filled
with the byte 7. -/
theorem C8_buffer_filled_witness :
    generate_fractal realMath (List.range HEIGHT)
      (List.replicate HEIGHT (List.replicate (WIDTH * 3) 7)) = some (expectedImage realMath) :=
  (C8_buffer_filled realMath (List.range HEIGHT)
    (List.replicate HEIGHT (List.replicate (WIDTH * 3) 7)) (List.Perm.refl _)
    (List.length_replicate _ _)
    (by
      intro row hrow
      rw [List.eq_of_mem_replicate hrow]
      exact List.length_replicate _ _)).1

/-- C9: for every count `0 ≤ iter < MAX_ITER` the sample colour is `(0,0,0)`
if and only if `iter` is a multiple of 256, that is one of
`0, 256, ..., 1792`; and a sample that escapes at count 0 gets the colour of
an interior sample (`iter = MAX_ITER`). -/
theorem C9_black_iff (iter : Nat) (h : iter < MAX_ITER) :
    (sampleColour MAX_ITER iter = ⟨0, 0, 0⟩ ↔ iter % 256 = 0) ∧
    (iter % 256 = 0 ↔ iter ∈ [0, 256, 512, 768, 1024, 1280, 1536, 1792]) ∧
    sampleColour MAX_ITER 0 = sampleColour MAX_ITER MAX_ITER := by
  have hM : iter < 2000 := h
  refine ⟨?_, ?_, ?_⟩
  · rw [sampleColour_below iter h]
    constructor
    · intro heq
      have h3 : 3 * iter % 256 = 0 := congrArg RGB.green heq
      omega
    · intro hmod
      have h15 : 15 * iter % 256 = 0 := by omega
      have h3 : 3 * iter % 256 = 0 := by omega
      have h5 : 5 * iter % 256 = 0 := by omega
      rw [h15, h3, h5]
  · simp only [List.mem_cons, List.mem_singleton, List.not_mem_nil, or_false]
    omega
  · decide

/-- C9 at `iter = 256`: a sample escaping at count 256 is black. -/
theorem C9_black_iff_witness :
    256 < MAX_ITER ∧ sampleColour MAX_ITER 256 = ⟨0, 0, 0⟩ :=
  ⟨by decide, ((C9_black_iff 256 (by decide)).1).2 (by decide)⟩

/-- C10: for every pixel `0 ≤ x < 1980`, `0 ≤ y < 1080` and sub-sample
`sx, sy ∈ {0, 1}`, the sample point computed in exact rational arithmetic has
`0 < |zx| < 2` and `0 < |zy| < 2`; so it is not the origin, and in exact real
arithmetic the modulus `r` passed to the first `T(r, phi)` is positive. -/
theorem C10_sample_off_origin (x y sx sy : Nat) (hx : x < 1980) (hy : y < 1080)
    (hsx : sx < 2) (hsy : sy < 2) :
    (0 < |(samplePoint ratArith x y sx sy).re| ∧ |(samplePoint ratArith x y sx sy).re| < 2) ∧
    (0 < |(samplePoint ratArith x y sx sy).im| ∧ |(samplePoint ratArith x y sx sy).im| < 2) ∧
    samplePoint ratArith x y sx sy ≠ ⟨0, 0⟩ ∧
    0 < realMath.cabs (samplePoint realMath.toArith x y sx sy) := by
  have hre := sampleCoord_bounds WIDTH x sx hx hsx
  have him := sampleCoord_bounds HEIGHT y sy hy hsy
  have hre0 : sampleCoord ratArith WIDTH x sx ≠ 0 := abs_pos.1 hre.1
  refine ⟨hre, him, ?_, ?_⟩
  · intro h0
    exact hre0 (congrArg Cplx.re h0)
  · apply real_cabs_pos
    show sampleCoord realMath.toArith WIDTH x sx ≠ 0
    rw [real_sampleCoord]
    exact_mod_cast hre0

/-- C10 at the last pixel `(1979, 1079)`, sub-sample `(1, 1)`. -/
theorem C10_sample_off_origin_witness :
    0 < |(samplePoint ratArith 1979 1079 1 1).re| ∧
      |(samplePoint ratArith 1979 1079 1 1).re| < 2 :=
  (C10_sample_off_origin 1979 1079 1 1 (by norm_num) (by norm_num) (by norm_num)
    (by norm_num)).1

end HeartFractal
